import Mathlib

/-!
Shallow embedding of the announcement-scraping pipeline in
src/demo data parsing script/dataparser.py, together with proofs of the
specified properties.

Strings are modelled as lists of characters; Python regular-expression
searches built with re.escape are modelled as literal substring tests on
case-folded text; the HTTP layer and the PDF/plain-text extraction
libraries are modelled as oracle functions passed in explicitly, with
requests.raise_for_status embedded as a status-code test.
-/

/-- Python strings are modelled as lists of characters. -/
abbrev Str := List Char

/-- Model of Python str.lower, applied character by character. -/
def lowerStr (s : Str) : Str := s.map Char.toLower

/-- Literal substring test: pat occurs contiguously somewhere in s.
This models re.compile(re.escape(pat)).search(s) being non-None, since
re.escape makes every character of pat match literally. -/
def containsSub (pat s : Str) : Bool :=
  s.tails.any (fun t => pat.isPrefixOf t)

/-- Embedding of KEYWORDS.search from the script:
KEYWORDS = re.compile(re.escape(COMPANY_NAME), re.IGNORECASE), so a title
matches exactly when the case-folded name occurs literally in the
case-folded title. -/
def kwSearch (companyName s : Str) : Bool :=
  containsSub (lowerStr companyName) (lowerStr s)

/-- An announcement record as produced by either fetcher:
dicts with keys source, title, link, date. -/
structure Announcement where
  source : Str
  title : Str
  link : Str
  date : Str
deriving DecidableEq, Repr

/-- Embedding of filter_announcements: keep only those announcements whose
title matches the compiled company-name pattern. -/
def filter_announcements (companyName : Str) (anns : List Announcement) : List Announcement :=
  anns.filter (fun a => kwSearch companyName a.title)

theorem containsSub_iff (pat s : Str) : containsSub pat s = true ↔ pat <:+: s := by
  unfold containsSub
  rw [List.any_eq_true]
  constructor
  · rintro ⟨t, ht, hp⟩
    rw [List.mem_tails] at ht
    rw [ List.isPrefixOf_iff_prefix] at hp
    exact List.infix_iff_prefix_suffix.mpr ⟨t, hp, ht⟩
  · intro h
    obtain ⟨t, hp, ht⟩ := List.infix_iff_prefix_suffix.mp h
    exact ⟨t, (List.mem_tails _ _).mpr ht, List.isPrefixOf_iff_prefix.mpr hp⟩

theorem kwSearch_iff (companyName s : Str) :
    kwSearch companyName s = true ↔ lowerStr companyName <:+: lowerStr s := by
  unfold kwSearch
  exact containsSub_iff _ _

theorem kwSearch_eq_decide (companyName s : Str) :
    kwSearch companyName s = decide (lowerStr companyName <:+: lowerStr s) := by
  by_cases h : lowerStr companyName <:+: lowerStr s
  · rw [decide_eq_true h]
    exact (kwSearch_iff _ _).mpr h
  · rw [decide_eq_false h]
    cases hc : kwSearch companyName s
    · rfl
    · exact absurd ((kwSearch_iff _ _).mp hc) h

/-- C1: filter_announcements returns exactly the order-preserving
sub-sequence of the input whose titles contain the company name as a
case-insensitive literal substring (exact substring semantics, because the
pattern is built with re.escape). -/
theorem filter_announcements_exact (companyName : Str) (anns : List Announcement) :
    List.Sublist (filter_announcements companyName anns) anns ∧
    filter_announcements companyName anns
      = anns.filter (fun a => decide (lowerStr companyName <:+: lowerStr a.title)) ∧
    ∀ a : Announcement, a ∈ filter_announcements companyName anns ↔
      a ∈ anns ∧ lowerStr companyName <:+: lowerStr a.title := by
  refine ⟨List.filter_sublist anns, ?_, ?_⟩
  · unfold filter_announcements
    congr 1
    funext a
    exact kwSearch_eq_decide companyName a.title
  · intro a
    unfold filter_announcements
    rw [List.mem_filter, kwSearch_iff]

/-- C9: filter_announcements is idempotent - filtering its own output
returns that output unchanged. -/
theorem filter_announcements_idem (companyName : Str) (anns : List Announcement) :
    filter_announcements companyName (filter_announcements companyName anns)
      = filter_announcements companyName anns := by
  unfold filter_announcements
  rw [List.filter_filter]
  simp

/-- Model of Python str.splitlines for newline-separated text: no entry is
produced for an empty string, and no trailing empty entry is produced when
the text ends with a newline. -/
def splitLines (s : Str) : List Str :=
  s.foldr
    (fun c acc =>
      if c = '\n' then [] :: acc
      else
        match acc with
        | [] => [[c]]
        | l :: ls => (c :: l) :: ls)
    []

/-- Model of Python str.strip: remove leading and trailing whitespace. -/
def stripChars (s : Str) : Str :=
  ((s.dropWhile Char.isWhitespace).reverse.dropWhile Char.isWhitespace).reverse

/-- Embedding of the per-line test of extract_key_lines: the compiled
pattern (?i)shareholder|director|board|re.escape(COMPANY_NAME) matches a
line exactly when one of the three literal terms or the case-folded
company name occurs in the case-folded line. -/
def keyLineMatch (companyName ln : Str) : Bool :=
  containsSub ("shareholder".toList) (lowerStr ln) ||
  containsSub ("director".toList) (lowerStr ln) ||
  containsSub ("board".toList) (lowerStr ln) ||
  containsSub (lowerStr companyName) (lowerStr ln)

/-- Embedding of extract_key_lines: split the text into lines, keep the
lines matching the keyword pattern, strip each kept line, and return at
most maxLines of them. -/
def extract_key_lines (companyName : Str) (text : Str) (maxLines : Nat := 5) : List Str :=
  ((((splitLines text).filter (keyLineMatch companyName)).map stripChars).take maxLines)

/-- C2: extract_key_lines returns at most maxLines entries; the entries
are, in their original relative order, stripped copies of lines of the
text that match the case-insensitive shareholder/director/board/company
pattern. -/
theorem extract_key_lines_bounded_ordered (companyName text : Str) (n : Nat) :
    (extract_key_lines companyName text n).length ≤ n ∧
    List.Sublist (extract_key_lines companyName text n) ((splitLines text).map stripChars) ∧
    ∀ l ∈ extract_key_lines companyName text n,
      ∃ ln, ln ∈ splitLines text ∧ keyLineMatch companyName ln = true ∧ l = stripChars ln := by
  unfold extract_key_lines
  refine ⟨by simp, ?_, ?_⟩
  · exact (List.take_sublist _ _).trans ((List.filter_sublist _).map stripChars)
  · intro l hl
    have hl' := List.mem_of_mem_take hl
    obtain ⟨ln, hln, rfl⟩ := List.mem_map.mp hl'
    rw [List.mem_filter] at hln
    exact ⟨ln, hln.1, hln.2, rfl⟩

/-- Witness for C2 at a concrete text containing two matching lines and a
cap of one: the bound, the order-preservation and the shape of the single
returned entry are all realized. -/
theorem extract_key_lines_bounded_ordered_witness :
    (extract_key_lines "Acme".toList "hello\n Director X quit \nthe board met\n".toList 1).length ≤ 1 ∧
    List.Sublist (extract_key_lines "Acme".toList "hello\n Director X quit \nthe board met\n".toList 1)
      ((splitLines "hello\n Director X quit \nthe board met\n".toList).map stripChars) ∧
    (∃ ln, ln ∈ splitLines "hello\n Director X quit \nthe board met\n".toList ∧
      keyLineMatch "Acme".toList ln = true ∧ "Director X quit".toList = stripChars ln) := by
  have h := extract_key_lines_bounded_ordered "Acme".toList "hello\n Director X quit \nthe board met\n".toList 1
  exact ⟨h.1, h.2.1, h.2.2 ("Director X quit".toList) (by decide)⟩

/-- A word character in the sense of the regex class \w: letters, digits
and the underscore; \W matches exactly the other characters. -/
def isWordChar (c : Char) : Bool := c.isAlphanum || c = '_'

/-- Embedding of re.sub applied to the pattern of one-or-more non-word
characters with replacement by an underscore, as used for COMPANY_SLUG:
each maximal run of non-word characters collapses to a single '_'. -/
def squashNonWord : Str → Str
  | [] => []
  | c :: cs =>
    if isWordChar c then c :: squashNonWord cs
    else '_' :: squashNonWord (cs.dropWhile (fun d => !isWordChar d))
termination_by s => s.length
decreasing_by
  · simp only [List.length_cons]
    omega
  · have h := List.Sublist.length_le (List.dropWhile_sublist (fun d => !isWordChar d) (l := cs))
    simp only [List.length_cons]
    omega

/-- Embedding of COMPANY_SLUG: the stripped company name, lowercased, with
non-word runs collapsed to underscores. -/
def companySlug (name : Str) : Str := squashNonWord (lowerStr name)

/-- Embedding of OUTPUT_JSON: the slug followed by _announcements.json. -/
def outputJsonName (name : Str) : Str := companySlug name ++ "_announcements.json".toList

/-- Decomposition of a string into its maximal runs of characters that
agree on word-character status; used to state the specification reading of
the slug normalization. -/
def wordRuns : Str → List Str
  | [] => []
  | c :: cs =>
    (c :: cs.takeWhile (fun d => isWordChar d == isWordChar c)) ::
      wordRuns (cs.dropWhile (fun d => isWordChar d == isWordChar c))
termination_by s => s.length
decreasing_by
  have h := List.Sublist.length_le (List.dropWhile_sublist (fun d => isWordChar d == isWordChar c) (l := cs))
  simp only [List.length_cons]
  omega

/-- Spec-side treatment of one maximal run: word runs are kept, non-word
runs become a single underscore. -/
def replaceRun (run : Str) : Str :=
  match run with
  | [] => []
  | c :: _ => if isWordChar c then run else ['_']

theorem wordRuns_flatten (s : Str) : (wordRuns s).flatten = s := by
  induction s using wordRuns.induct with
  | case1 => rw [wordRuns]; rfl
  | case2 c cs ih =>
    rw [wordRuns]
    simp only [List.flatten_cons]
    rw [ih, List.cons_append, List.takeWhile_append_dropWhile]

theorem squashNonWord_word_append (t r : Str) (h : t.all isWordChar = true) :
    squashNonWord (t ++ r) = t ++ squashNonWord r := by
  induction t with
  | nil => rfl
  | cons c cs ih =>
    rw [List.all_cons, Bool.and_eq_true] at h
    rw [List.cons_append, squashNonWord]
    simp only [h.1, if_true, List.cons_append]
    rw [ih h.2]

theorem squashNonWord_take_drop (cs : Str) :
    squashNonWord cs = cs.takeWhile isWordChar ++ squashNonWord (cs.dropWhile isWordChar) := by
  have h := squashNonWord_word_append (cs.takeWhile isWordChar) (cs.dropWhile isWordChar)
    (List.all_takeWhile)
  rw [List.takeWhile_append_dropWhile] at h
  exact h

theorem squashNonWord_eq_runs (s : Str) :
    squashNonWord s = ((wordRuns s).map replaceRun).flatten := by
  induction s using wordRuns.induct with
  | case1 => rw [squashNonWord, wordRuns]; rfl
  | case2 c cs ih =>
    cases hc : isWordChar c
    case false =>
      have hpred : (fun d => isWordChar d == isWordChar c) = (fun d => !isWordChar d) := by
        funext d
        rw [hc]
        cases isWordChar d <;> rfl
      rw [hpred] at ih
      rw [wordRuns, hpred]
      simp only [List.map_cons, List.flatten_cons]
      rw [← ih, squashNonWord]
      simp only [hc]
      unfold replaceRun
      simp only [hc]
      rfl
    case true =>
      have hpred : (fun d => isWordChar d == isWordChar c) = isWordChar := by
        funext d
        rw [hc]
        cases isWordChar d <;> rfl
      rw [hpred] at ih
      rw [wordRuns, hpred]
      simp only [List.map_cons, List.flatten_cons]
      rw [← ih, squashNonWord]
      simp only [hc]
      unfold replaceRun
      simp only [hc]
      simp only [if_true, List.cons_append]
      rw [squashNonWord_take_drop cs]

/-- C8: the report file is named with the normalized company name followed
by _announcements.json, where normalization lowercases the name and
replaces every maximal run of non-word characters (the wordRuns
decomposition, which flattens back to the lowercased name) by a single
underscore. -/
theorem outputJsonName_normalized (name : Str) :
    (wordRuns (lowerStr name)).flatten = lowerStr name ∧
    outputJsonName name
      = ((wordRuns (lowerStr name)).map replaceRun).flatten ++ "_announcements.json".toList := by
  refine ⟨wordRuns_flatten _, ?_⟩
  unfold outputJsonName companySlug
  rw [squashNonWord_eq_runs]

theorem dropWhile_append_of_all (p : Char → Bool) (pre x : Str) (h : pre.all p = true) :
    (pre ++ x).dropWhile p = x.dropWhile p := by
  induction pre with
  | nil => rfl
  | cons c cs ih =>
    rw [List.all_cons, Bool.and_eq_true] at h
    rw [List.cons_append, List.dropWhile_cons]
    simp only [h.1, if_true]
    exact ih h.2

theorem dropWhile_eq_nil_of_all (p : Char → Bool) (l : Str) (h : l.all p = true) :
    l.dropWhile p = [] := by
  have hx := dropWhile_append_of_all p l [] h
  simpa using hx

theorem stripChars_surrounding_ws (raw pre post : Str)
    (hpre : pre.all Char.isWhitespace = true) (hpost : post.all Char.isWhitespace = true) :
    stripChars (pre ++ raw ++ post) = stripChars raw := by
  unfold stripChars
  rw [List.append_assoc, dropWhile_append_of_all _ _ _ hpre, List.dropWhile_append]
  cases h : (raw.dropWhile Char.isWhitespace).isEmpty
  case true =>
    rw [List.isEmpty_iff] at h
    rw [h]
    simp only [List.isEmpty_nil, if_true]
    rw [dropWhile_eq_nil_of_all _ _ hpost]
  case false =>
    simp only [h, Bool.false_eq_true, if_false]
    rw [List.reverse_append]
    rw [dropWhile_append_of_all _ _ _ (by rw [ List.all_reverse]; exact hpost)]

/-- C10: the company-name argument is stripped before use, so an argument
with extra surrounding whitespace yields the same filter behaviour, the
same key-line selection and the same output filename as the trimmed
argument. -/
theorem company_name_strip_invariant (raw pre post : Str)
    (hpre : pre.all Char.isWhitespace = true) (hpost : post.all Char.isWhitespace = true) :
    stripChars (pre ++ raw ++ post) = stripChars raw ∧
    (∀ anns, filter_announcements (stripChars (pre ++ raw ++ post)) anns
        = filter_announcements (stripChars raw) anns) ∧
    (∀ text n, extract_key_lines (stripChars (pre ++ raw ++ post)) text n
        = extract_key_lines (stripChars raw) text n) ∧
    outputJsonName (stripChars (pre ++ raw ++ post)) = outputJsonName (stripChars raw) := by
  have h := stripChars_surrounding_ws raw pre post hpre hpost
  rw [h]
  exact ⟨rfl, fun _ => rfl, fun _ _ => rfl, rfl⟩

/-- Witness for C10: running with the padded argument " Acme " produces
the same stripped name, filtering, key-line selection and output filename
as running with "Acme". -/
theorem company_name_strip_invariant_witness :
    stripChars (" ".toList ++ "Acme".toList ++ " ".toList) = stripChars "Acme".toList ∧
    (∀ anns, filter_announcements (stripChars (" ".toList ++ "Acme".toList ++ " ".toList)) anns
        = filter_announcements (stripChars "Acme".toList) anns) ∧
    (∀ text n, extract_key_lines (stripChars (" ".toList ++ "Acme".toList ++ " ".toList)) text n
        = extract_key_lines (stripChars "Acme".toList) text n) ∧
    outputJsonName (stripChars (" ".toList ++ "Acme".toList ++ " ".toList))
      = outputJsonName (stripChars "Acme".toList) :=
  company_name_strip_invariant "Acme".toList " ".toList " ".toList (by decide) (by decide)

/-- Model of Python str.split on a single separator character: always
returns at least one (possibly empty) piece, one piece per separator. -/
def splitOnChar (sep : Char) : Str → List Str
  | [] => [[]]
  | c :: cs =>
    if c = sep then [] :: splitOnChar sep cs
    else
      match splitOnChar sep cs with
      | [] => [[c]]
      | s :: ss => (c :: s) :: ss

/-- The filesystem-unsafe characters sanitized by download_file. -/
def badFileChars : Str := ['\\', '/', '*', '?', '"', '<', '>', '|']

/-- Embedding of the re.sub sanitization in download_file: every unsafe
character of the derived filename becomes an underscore. -/
def sanitizeFn (fn : Str) : Str :=
  fn.map (fun c => if c ∈ badFileChars then '_' else c)

/-- Embedding of the fallback filename in download_file: the date, an
underscore, the first 30 characters of the title, and a .html extension. -/
def fallbackName (ann : Announcement) : Str :=
  ann.date ++ '_' :: (ann.title.take 30 ++ ".html".toList)

/-- Embedding of the filename derivation in download_file: the last
slash-separated piece of the link (falling back to the synthesized name
when that piece is empty), sanitized. -/
def deriveFilename (ann : Announcement) : Str :=
  let seg := (splitOnChar '/' ann.link).getLastD []
  sanitizeFn (if seg.isEmpty then fallbackName ann else seg)

/-- Modelled from the claim wording, for comparison with the code: derive
the filename from the final path segment of the link with the query string
stripped first. -/
def deriveFilenameQueryStripped (ann : Announcement) : Str :=
  let seg := (splitOnChar '/' (ann.link.takeWhile (fun c => c != '?'))).getLastD []
  sanitizeFn (if seg.isEmpty then fallbackName ann else seg)

theorem splitOnChar_ne_nil (sep : Char) (l : Str) : splitOnChar sep l ≠ [] := by
  cases l with
  | nil => exact fun h => List.noConfusion h
  | cons c cs =>
    rw [splitOnChar]
    by_cases h : c = sep
    · simp [h]
    · simp only [h, if_false]
      split <;> simp

theorem splitOnChar_of_not_mem (sep : Char) (l : Str) (h : sep ∉ l) :
    splitOnChar sep l = [l] := by
  induction l with
  | nil => rfl
  | cons c cs ih =>
    rw [List.mem_cons, not_or] at h
    rw [splitOnChar, if_neg (fun hc => h.1 hc.symm), ih h.2]

theorem splitOnChar_eq_singleton (sep : Char) (l s : Str)
    (h : splitOnChar sep l = [s]) : s = l := by
  induction l generalizing s with
  | nil =>
    rw [splitOnChar] at h
    injection h with h1 h2
    exact h1.symm
  | cons c cs ih =>
    rw [splitOnChar] at h
    by_cases hc : c = sep
    · rw [if_pos hc] at h
      injection h with h1 h2
      exact absurd h2 (splitOnChar_ne_nil sep cs)
    · rw [if_neg hc] at h
      cases hsp : splitOnChar sep cs with
      | nil => exact absurd hsp (splitOnChar_ne_nil sep cs)
      | cons t ts =>
        rw [hsp] at h
        injection h with h1 h2
        subst h2
        rw [← h1, ih t hsp]

theorem getLastD_cons_cons (a b : Str) (l : List Str) (d : Str) :
    (a :: b :: l).getLastD d = (b :: l).getLastD d := by
  simp only [List.getLastD_cons]


theorem splitOnChar_getLastD_spec (sep : Char) (l : Str) :
    sep ∉ (splitOnChar sep l).getLastD [] ∧
    ((splitOnChar sep l).getLastD [] = l ∨ sep :: (splitOnChar sep l).getLastD [] <:+ l) := by
  induction l with
  | nil => exact ⟨List.not_mem_nil sep, Or.inl rfl⟩
  | cons c cs ih =>
    rw [splitOnChar]
    by_cases hc : c = sep
    · rw [if_pos hc]
      cases hsp : splitOnChar sep cs with
      | nil => exact absurd hsp (splitOnChar_ne_nil sep cs)
      | cons t ts =>
        rw [hsp] at ih
        rw [getLastD_cons_cons]
        refine ⟨ih.1, Or.inr ?_⟩
        rcases ih.2 with h | h
        · rw [h, ← hc]
        · exact h.trans (List.suffix_cons c cs)
    · rw [if_neg hc]
      cases hsp : splitOnChar sep cs with
      | nil => exact absurd hsp (splitOnChar_ne_nil sep cs)
      | cons t ts =>
        rw [hsp] at ih
        cases ts with
        | nil =>
          have ht : t = cs := splitOnChar_eq_singleton sep cs t hsp
          simp only [List.getLastD_cons, List.getLastD_nil] at ih ⊢
          refine ⟨?_, Or.inl (by rw [ht])⟩
          rw [List.mem_cons, not_or]
          exact ⟨fun h => hc h.symm, ih.1⟩
        | cons r rs =>
          rw [getLastD_cons_cons] at ih ⊢
          refine ⟨ih.1, ?_⟩
          rcases ih.2 with h | h
          · exfalso
            have hnm : sep ∉ cs := by rw [← h]; exact ih.1
            rw [splitOnChar_of_not_mem sep cs hnm] at hsp
            injection hsp with h1 h2
            exact List.noConfusion h2
          · exact Or.inr (h.trans (List.suffix_cons c cs))

theorem sanitizeFn_no_bad (fn : Str) : ∀ c ∈ sanitizeFn fn, c ∉ badFileChars := by
  intro c hc
  obtain ⟨d, hd, hdc⟩ := List.mem_map.mp hc
  by_cases h : d ∈ badFileChars
  · rw [if_pos h] at hdc
    rw [← hdc]
    decide
  · rw [if_neg h] at hdc
    rw [← hdc]
    exact h

/-- Counterexample for C5 as stated: for a link whose final path segment
carries a query string, the code keeps the query string (sanitizing its
characters) rather than stripping it, so the produced filename is
report.pdf_v=1 and not the report.pdf that query-stripping would give. -/
theorem deriveFilename_query_not_stripped :
    deriveFilename
        ⟨"SGX".toList, "Acme results".toList, "https://www.sgx.com/report.pdf?v=1".toList,
          "2024".toList⟩
      = "report.pdf_v=1".toList ∧
    deriveFilenameQueryStripped
        ⟨"SGX".toList, "Acme results".toList, "https://www.sgx.com/report.pdf?v=1".toList,
          "2024".toList⟩
      = "report.pdf".toList ∧
    deriveFilename
        ⟨"SGX".toList, "Acme results".toList, "https://www.sgx.com/report.pdf?v=1".toList,
          "2024".toList⟩
      ≠ deriveFilenameQueryStripped
        ⟨"SGX".toList, "Acme results".toList, "https://www.sgx.com/report.pdf?v=1".toList,
          "2024".toList⟩ := by
  refine ⟨by decide, by decide, by decide⟩

/-- C5 amended: the filename is derived from the final slash-separated
segment of the full link URL, query string included; if that segment is
empty the fallback is the date, an underscore, the first 30 characters of
the title and a .html extension; each unsafe character of the derived name
is replaced by an underscore, so none remains in the result. -/
theorem deriveFilename_amended (ann : Announcement) :
    (∀ c ∈ deriveFilename ann, c ∉ badFileChars) ∧
    ∃ seg : Str, '/' ∉ seg ∧ (seg = ann.link ∨ '/' :: seg <:+ ann.link) ∧
      deriveFilename ann = sanitizeFn (if seg.isEmpty then fallbackName ann else seg) := by
  refine ⟨sanitizeFn_no_bad _, (splitOnChar '/' ann.link).getLastD [], ?_, ?_, rfl⟩
  · exact (splitOnChar_getLastD_spec '/' ann.link).1
  · exact (splitOnChar_getLastD_spec '/' ann.link).2

/-- Witness for C5 at a concrete pdf link: the amended characterization is
realized with the slash-free suffix x.pdf of the link. -/
theorem deriveFilename_amended_witness :
    (∀ c ∈ deriveFilename ⟨"SGX".toList, "t".toList, "https://a.b/x.pdf".toList, "d".toList⟩,
        c ∉ badFileChars) ∧
    ∃ seg : Str, '/' ∉ seg ∧
      (seg = "https://a.b/x.pdf".toList ∨ '/' :: seg <:+ "https://a.b/x.pdf".toList) ∧
      deriveFilename ⟨"SGX".toList, "t".toList, "https://a.b/x.pdf".toList, "d".toList⟩
        = sanitizeFn (if seg.isEmpty
            then fallbackName ⟨"SGX".toList, "t".toList, "https://a.b/x.pdf".toList, "d".toList⟩
            else seg) :=
  deriveFilename_amended ⟨"SGX".toList, "t".toList, "https://a.b/x.pdf".toList, "d".toList⟩

/-- Embedding of requests.Response.raise_for_status: an HTTP status in the
4xx or 5xx range raises, anything else is a success. -/
def raiseForStatus (status : Nat) : Except Str Unit :=
  if 400 ≤ status ∧ status < 600 then Except.error "HTTPError".toList else Except.ok ()

/-- The fixed local download directory prefix joined by os.path.join. -/
def downloadDirPrefix : Str := "downloads/".toList

/-- Embedding of download_file, with the network modelled as a status
oracle on the link URL: a failing status propagates the HTTPError raised
by raise_for_status, otherwise the file is stored under the download
directory at the derived filename and that path is returned. -/
def download_file (status : Str → Nat) (ann : Announcement) : Except Str Str :=
  match raiseForStatus (status ann.link) with
  | Except.error e => Except.error e
  | Except.ok _ => Except.ok (downloadDirPrefix ++ deriveFilename ann)

/-- Model of os.path.basename: the part of the path after the last
slash. -/
def basename (p : Str) : Str := (p.reverse.takeWhile (fun c => c != '/')).reverse

/-- Model of (path : str).lower().endswith of a suffix. -/
def hasSuffixCI (suf p : Str) : Bool := suf.isSuffixOf (lowerStr p)

/-- Embedding of extract_text, with the pdf library and the filesystem
modelled as oracles: for a path ending in .pdf (case-insensitively) the
document is opened as a list of per-page optional texts, the non-empty
page texts are concatenated with newline separators, and an open failure
is caught and yields the empty string; for any other path the file is read
as text and a read failure is caught and yields the empty string. -/
def extract_text (pdfOpen : Str → Except Str (List (Option Str)))
    (readFile : Str → Except Str Str) (path : Str) : Str :=
  if hasSuffixCI ".pdf".toList path then
    match pdfOpen path with
    | Except.ok pages =>
        pages.foldl
          (fun text pg =>
            match pg with
            | some t => if t.isEmpty then text else text ++ t ++ ['\n']
            | none => text)
          []
    | Except.error _ => []
  else
    match readFile path with
    | Except.ok t => t
    | Except.error _ => []

/-- The output record assembled per announcement in main. -/
structure ResultRecord where
  date : Str
  source : Str
  title : Str
  link : Str
  file : Str
  key_lines : List Str
deriving DecidableEq, Repr

/-- Embedding of the body of the per-announcement try block in main:
download, extract, select key lines, assemble the record; the only
uncaught failure inside the block is the download (extract_text recovers
internally), and it aborts the block with the raised error. -/
def processAnn (status : Str → Nat) (pdfOpen : Str → Except Str (List (Option Str)))
    (readFile : Str → Except Str Str) (companyName : Str) (ann : Announcement) :
    Except Str ResultRecord :=
  match download_file status ann with
  | Except.error e => Except.error e
  | Except.ok path =>
      let text := extract_text pdfOpen readFile path
      let kl := extract_key_lines companyName text 5
      Except.ok ⟨ann.date, ann.source, ann.title, ann.link, basename path, kl⟩

/-- Embedding of the results loop in main: each announcement is processed
inside its own try block; a success appends its record to the report and a
failure is demoted to an emitted error message, after which the loop
continues with the next announcement. -/
def processAll (f : Announcement → Except Str ResultRecord) :
    List Announcement → List ResultRecord × List Str
  | [] => ([], [])
  | a :: as =>
      let rest := processAll f as
      match f a with
      | Except.ok r => (r :: rest.1, rest.2)
      | Except.error e => (rest.1, e :: rest.2)

theorem processAll_append (f : Announcement → Except Str ResultRecord)
    (xs ys : List Announcement) :
    processAll f (xs ++ ys)
      = ((processAll f xs).1 ++ (processAll f ys).1,
         (processAll f xs).2 ++ (processAll f ys).2) := by
  induction xs with
  | nil => rfl
  | cons a as ih =>
    rw [List.cons_append, processAll, processAll, ih]
    cases f a <;> rfl

/-- C3: when the per-announcement processing of one announcement fails
(download error or any other failure raised inside the try block), that
announcement contributes no record at all to the report, its error message
is emitted, and every announcement before and after it is still processed
normally. -/
theorem failed_announcement_skipped (status : Str → Nat)
    (pdfOpen : Str → Except Str (List (Option Str))) (readFile : Str → Except Str Str)
    (companyName : Str) (pre post : List Announcement) (a : Announcement) (e : Str)
    (h : processAnn status pdfOpen readFile companyName a = Except.error e) :
    processAll (processAnn status pdfOpen readFile companyName) (pre ++ a :: post)
      = ((processAll (processAnn status pdfOpen readFile companyName) pre).1
           ++ (processAll (processAnn status pdfOpen readFile companyName) post).1,
         (processAll (processAnn status pdfOpen readFile companyName) pre).2
           ++ e :: (processAll (processAnn status pdfOpen readFile companyName) post).2) := by
  rw [processAll_append, processAll, h]

/-- Concrete scenario for C3: one announcement whose link answers 404
followed by one good announcement; the report holds only the record of the
good one and the HTTPError of the bad one is emitted. -/
def statusW3 : Str → Nat := fun l => if l = "https://x/bad.pdf".toList then 404 else 200

def pdfOpenW3 : Str → Except Str (List (Option Str)) := fun _ => Except.error "boom".toList

def readFileW3 : Str → Except Str Str := fun _ => Except.ok " Director John resigned \nnothing".toList

def annBadW3 : Announcement :=
  ⟨"SGX".toList, "Acme A".toList, "https://x/bad.pdf".toList, "d1".toList⟩

def annGoodW3 : Announcement :=
  ⟨"SGX".toList, "Acme B".toList, "https://x/good.txt".toList, "d2".toList⟩

/-- Witness for C3: at the concrete 404-then-good scenario, the failing
announcement is skipped with its error emitted and the good one is still
processed. -/
theorem failed_announcement_skipped_witness :
    processAll (processAnn statusW3 pdfOpenW3 readFileW3 "Acme".toList)
        ([] ++ annBadW3 :: [annGoodW3])
      = ((processAll (processAnn statusW3 pdfOpenW3 readFileW3 "Acme".toList) []).1
           ++ (processAll (processAnn statusW3 pdfOpenW3 readFileW3 "Acme".toList) [annGoodW3]).1,
         (processAll (processAnn statusW3 pdfOpenW3 readFileW3 "Acme".toList) []).2
           ++ "HTTPError".toList
             :: (processAll (processAnn statusW3 pdfOpenW3 readFileW3 "Acme".toList) [annGoodW3]).2) :=
  failed_announcement_skipped statusW3 pdfOpenW3 readFileW3 "Acme".toList [] [annGoodW3]
    annBadW3 "HTTPError".toList rfl

/-- C4: when the extractor's underlying library fails (a pdf document that
cannot be opened, or a non-pdf file that cannot be read), the failure is
caught inside extract_text, which returns the empty string; the
announcement still yields a record, with empty key_lines, and processing
of the announcement succeeds rather than aborting. -/
theorem extraction_failure_recovered (status : Str → Nat)
    (pdfOpen : Str → Except Str (List (Option Str))) (readFile : Str → Except Str Str)
    (companyName : Str) (ann : Announcement) (path e : Str)
    (hdl : download_file status ann = Except.ok path)
    (hfail : (hasSuffixCI ".pdf".toList path = true ∧ pdfOpen path = Except.error e)
      ∨ (hasSuffixCI ".pdf".toList path = false ∧ readFile path = Except.error e)) :
    extract_text pdfOpen readFile path = [] ∧
    processAnn status pdfOpen readFile companyName ann
      = Except.ok ⟨ann.date, ann.source, ann.title, ann.link, basename path, []⟩ := by
  have hext : extract_text pdfOpen readFile path = [] := by
    rcases hfail with ⟨hp, hf⟩ | ⟨hp, hf⟩
    · simp only [extract_text, hp, if_true, hf]
    · simp only [extract_text, hp, Bool.false_eq_true, if_false, hf]
  refine ⟨hext, ?_⟩
  rw [processAnn, hdl]
  simp only [hext]
  rfl

/-- Concrete scenario for C4: a downloadable pdf whose parse fails. -/
def statusW4 : Str → Nat := fun _ => 200

def pdfOpenW4 : Str → Except Str (List (Option Str)) := fun _ => Except.error "parse".toList

def readFileW4 : Str → Except Str Str := fun _ => Except.ok "unused".toList

def annW4 : Announcement :=
  ⟨"SGX".toList, "Acme C".toList, "https://x/doc.pdf".toList, "d3".toList⟩

/-- Witness for C4: the concrete failing pdf extraction yields empty text
and the announcement still gets a record with empty key_lines. -/
theorem extraction_failure_recovered_witness :
    extract_text pdfOpenW4 readFileW4 ("downloads/".toList ++ "doc.pdf".toList) = [] ∧
    processAnn statusW4 pdfOpenW4 readFileW4 "Acme".toList annW4
      = Except.ok ⟨annW4.date, annW4.source, annW4.title, annW4.link,
          basename ("downloads/".toList ++ "doc.pdf".toList), []⟩ :=
  extraction_failure_recovered statusW4 pdfOpenW4 readFileW4 "Acme".toList annW4
    ("downloads/".toList ++ "doc.pdf".toList) "parse".toList rfl
    (Or.inl ⟨by decide, rfl⟩)

/-- The fixed ExchangeB origin. -/
def BURSA_BASE_URL : Str := "https://www.bursamalaysia.com".toList

/-- Python truthiness of the optional --bursa-code argument: absent or
empty strings are falsy. -/
def codeTruthy : Option Str → Bool
  | none => false
  | some s => !s.isEmpty

/-- Embedding of BURSA_ANNOUNCE_URL: a fixed listing URL when a truthy
code was supplied, and None otherwise; note that the code itself does not
occur in the URL. -/
def BURSA_ANNOUNCE_URL (code : Option Str) : Option Str :=
  if codeTruthy code then
    some (BURSA_BASE_URL ++ "/market_information/announcements/company_announcement".toList)
  else none

/-- C6 (evidence of the code defect): the listing URL built by the fetcher
is identical for two different supplied company codes, and it is built at
all - the code value is never bound into the request. -/
theorem bursa_url_ignores_code :
    BURSA_ANNOUNCE_URL (some "5183".toList) = BURSA_ANNOUNCE_URL (some "1234".toList) ∧
    (BURSA_ANNOUNCE_URL (some "5183".toList)).isSome = true :=
  ⟨rfl, rfl⟩

/-- An HTTP response: status code, body, and the cookies the response sets
on the session. -/
structure HttpResp where
  status : Nat
  body : Str
  setCookies : List (Str × Str)

/-- An HTTP request as issued through the session: target URL, the session
headers, and the cookies the session holds when the request is sent. -/
structure HttpRequest where
  url : Str
  headers : List (Str × Str)
  cookies : List (Str × Str)
deriving DecidableEq, Repr

/-- The browser-emulation headers installed on the session in
fetch_bursa_announcements. -/
def sessionHeaders : List (Str × Str) :=
  [("User-Agent".toList,
    ("Mozilla/5.0 (Windows NT 10.0; Win64; x64) " ++
     "AppleWebKit/537.36 (KHTML, like Gecko) " ++
     "Chrome/114.0.5735.110 Safari/537.36").toList),
   ("Accept".toList, "text/html,application/xhtml+xml,application/xml;q=0.9,*/*;q=0.8".toList),
   ("Accept-Language".toList, "en-US,en;q=0.9".toList),
   ("Referer".toList, BURSA_BASE_URL ++ "/".toList),
   ("Connection".toList, "keep-alive".toList)]

/-- The warm-up request to the exchange home page: session headers, no
cookies yet. -/
def bursaHomeReq : HttpRequest := ⟨BURSA_BASE_URL ++ "/".toList, sessionHeaders, []⟩

/-- The listing request: same session headers, carrying the cookies the
warm-up response set on the session. -/
def bursaListReq (net : Str → HttpResp) (url : Str) : HttpRequest :=
  ⟨url, sessionHeaders, (net bursaHomeReq.url).setCookies⟩

/-- Embedding of fetch_bursa_announcements with the network as an oracle
from URLs to responses and the HTML table parsing as an oracle from bodies
to announcement lists; the returned list of requests records what was
issued through the session, in order. -/
def fetch_bursa_announcements (net : Str → HttpResp) (parseTable : Str → List Announcement)
    (code : Option Str) : Except Str (List Announcement) × List HttpRequest :=
  match BURSA_ANNOUNCE_URL code with
  | none => (Except.ok [], [])
  | some url =>
      match raiseForStatus (net bursaHomeReq.url).status with
      | Except.error e => (Except.error e, [bursaHomeReq])
      | Except.ok _ =>
          match raiseForStatus (net url).status with
          | Except.error e => (Except.error e, [bursaHomeReq, bursaListReq net url])
          | Except.ok _ =>
              (Except.ok (parseTable (net url).body), [bursaHomeReq, bursaListReq net url])

/-- C7: without a truthy company code the ExchangeB fetcher returns an
empty list immediately, with no error and no request issued; with a code,
the warm-up request to the home page is issued first, carrying the session
headers and no cookies, the listing request reuses the same session
headers together with the cookies set by the warm-up response, and a
non-success status of the warm-up or of the listing request propagates the
raised error out of the fetcher instead of being recovered. -/
theorem fetch_bursa_contract (net : Str → HttpResp) (parseTable : Str → List Announcement)
    (code : Option Str) (url : Str) (e : Str) :
    (codeTruthy code = false →
      fetch_bursa_announcements net parseTable code = (Except.ok [], [])) ∧
    (BURSA_ANNOUNCE_URL code = some url →
      (fetch_bursa_announcements net parseTable code).2.head? = some bursaHomeReq ∧
      bursaHomeReq.cookies = [] ∧
      (bursaListReq net url).cookies = (net bursaHomeReq.url).setCookies ∧
      (∀ r ∈ (fetch_bursa_announcements net parseTable code).2, r.headers = sessionHeaders) ∧
      (raiseForStatus (net bursaHomeReq.url).status = Except.error e →
        fetch_bursa_announcements net parseTable code = (Except.error e, [bursaHomeReq])) ∧
      (raiseForStatus (net bursaHomeReq.url).status = Except.ok () →
        (fetch_bursa_announcements net parseTable code).2
          = [bursaHomeReq, bursaListReq net url] ∧
        (raiseForStatus (net url).status = Except.error e →
          (fetch_bursa_announcements net parseTable code).1 = Except.error e) ∧
        (raiseForStatus (net url).status = Except.ok () →
          (fetch_bursa_announcements net parseTable code).1
            = Except.ok (parseTable (net url).body)))) := by
  constructor
  · intro h
    unfold fetch_bursa_announcements BURSA_ANNOUNCE_URL
    rw [h]
    rfl
  · intro h
    cases hs1 : raiseForStatus (net bursaHomeReq.url).status with
    | error e1 =>
      have hf : fetch_bursa_announcements net parseTable code
          = (Except.error e1, [bursaHomeReq]) := by
        unfold fetch_bursa_announcements
        rw [h]
        simp only [hs1]
      rw [hf]
      refine ⟨rfl, rfl, rfl, ?_, ?_, ?_⟩
      · intro r hr
        rw [List.mem_singleton] at hr
        rw [hr]
        rfl
      · intro he
        injection he with he1
        rw [he1]
      · intro hok
        exact Except.noConfusion hok
    | ok u =>
      cases hs2 : raiseForStatus (net url).status with
      | error e2 =>
        have hf : fetch_bursa_announcements net parseTable code
            = (Except.error e2, [bursaHomeReq, bursaListReq net url]) := by
          unfold fetch_bursa_announcements
          rw [h]
          simp only [hs1, hs2]
        rw [hf]
        refine ⟨rfl, rfl, rfl, ?_, ?_, ?_⟩
        · intro r hr
          rcases List.mem_cons.mp hr with hr1 | hr2
          · rw [hr1]
            rfl
          · rw [List.mem_singleton] at hr2
            rw [hr2]
            rfl
        · intro he
          exact Except.noConfusion he
        · intro _
          refine ⟨rfl, ?_, ?_⟩
          · intro he
            injection he with he1
            rw [he1]
          · intro hok
            exact Except.noConfusion hok
      | ok u2 =>
        have hf : fetch_bursa_announcements net parseTable code
            = (Except.ok (parseTable (net url).body),
               [bursaHomeReq, bursaListReq net url]) := by
          unfold fetch_bursa_announcements
          rw [h]
          simp only [hs1, hs2]
        rw [hf]
        refine ⟨rfl, rfl, rfl, ?_, ?_, ?_⟩
        · intro r hr
          rcases List.mem_cons.mp hr with hr1 | hr2
          · rw [hr1]
            rfl
          · rw [List.mem_singleton] at hr2
            rw [hr2]
            rfl
        · intro he
          exact Except.noConfusion he
        · intro _
          refine ⟨rfl, ?_, ?_⟩
          · intro he
            exact Except.noConfusion he
          · intro _
            rfl

/-- Concrete network for the C7 witness: the home page answers 200 and
sets a session cookie, every other URL answers 404. -/
def netW7 : Str → HttpResp :=
  fun u =>
    if u = BURSA_BASE_URL ++ "/".toList then ⟨200, [], [("sid".toList, "abc".toList)]⟩
    else ⟨404, [], []⟩

def parseW7 : Str → List Announcement := fun _ => []

def urlW7 : Str :=
  BURSA_BASE_URL ++ "/market_information/announcements/company_announcement".toList

/-- Witness for C7: with no code the fetcher returns an empty list and
issues no request; with a code, against the concrete network whose listing
endpoint answers 404, the warm-up succeeds, both requests are issued with
the cookie reused, and the listing failure propagates as an error. -/
theorem fetch_bursa_contract_witness :
    fetch_bursa_announcements netW7 parseW7 none = (Except.ok [], []) ∧
    (fetch_bursa_announcements netW7 parseW7 (some "5183".toList)).2
      = [bursaHomeReq, bursaListReq netW7 urlW7] ∧
    (fetch_bursa_announcements netW7 parseW7 (some "5183".toList)).1
      = Except.error "HTTPError".toList := by
  have h1 := (fetch_bursa_contract netW7 parseW7 none urlW7 "HTTPError".toList).1 rfl
  have h2 := (fetch_bursa_contract netW7 parseW7 (some "5183".toList) urlW7
    "HTTPError".toList).2 rfl
  have h3 := h2.2.2.2.2.2 rfl
  exact ⟨h1, h3.1, h3.2.1 rfl⟩
